import Mathlib

/-!
Verification of the Morse-code translator (`src/morse/morse_trie.py`).

The Python source is shallowly embedded here:
* Python strings are modelled as `List Char` (`String.data` converts string
  literals);
* Python floats in the timing model are modelled as exact rationals `ℚ`;
* Python code that can raise an uncaught exception is modelled with the
  result type `PyRes`, whose `raised` constructor stands for a propagated
  exception (in the source, an `AttributeError` from dereferencing `None`);
* the mutable object graph of `MorseNode` instances forms a strict tree
  (each child reference is exclusively owned by its parent), so it is
  modelled by the nested inductive `MorseNode`; the build pass, a sequence
  of in-place mutations, becomes a pure fold producing the same final tree,
  and `MorseTrie.decode` is additionally rendered in explicit
  state-passing style (`decodeSt`) to express its frame property.
-/

set_option autoImplicit false

/-- Result of running a piece of Python code: either a value or a
propagated (uncaught) exception. -/
inductive PyRes (α : Type) where
  | ok (val : α)
  | raised
  deriving DecidableEq, Repr

/-- `leadsWith p s` is true iff `p` is an initial segment of `s`
(the substring test Python performs at one scan position). -/
def leadsWith : List Char → List Char → Bool
  | [], _ => true
  | _ :: _, [] => false
  | a :: as, b :: bs => a = b && leadsWith as bs

/-- Fuel-indexed worker for `splitOnSep`; structural recursion on the fuel
keeps the function kernel-computable.  With fuel at least the length of the
string the fuel never runs out. -/
def splitOnSepF (sep : List Char) : Nat → List Char → List (List Char)
  | _, [] => [[]]
  | 0, s => [s]
  | fuel + 1, c :: rest =>
    if leadsWith sep (c :: rest) then
      [] :: splitOnSepF sep fuel (rest.drop (sep.length - 1))
    else
      match splitOnSepF sep fuel rest with
      | [] => [[c]]
      | w :: ws => (c :: w) :: ws

/-- Python `s.split(sep)` for a fixed non-empty separator string:
leftmost, non-overlapping matches; keeps empty pieces. -/
def splitOnSep (sep s : List Char) : List (List Char) :=
  splitOnSepF sep s.length s

/-- Python `sep.join(parts)`. -/
def joinSep (sep : List Char) : List (List Char) → List Char
  | [] => []
  | [w] => w
  | w :: ws => w ++ sep ++ joinSep sep ws

/-- The whitespace characters recognised by Python `str.split()` /
`str.strip()` (restricted to the ASCII whitespace set, which covers
every input the program's data can contain). -/
def pyWsChar (c : Char) : Bool :=
  c = ' ' || c = '\t' || c = '\n' || c = '\x0b' || c = '\x0c' || c = '\r'

/-- Python `s.strip()`: drop whitespace from both ends. -/
def pyStrip (s : List Char) : List Char :=
  ((s.dropWhile pyWsChar).reverse.dropWhile pyWsChar).reverse

/-- Helper for `pyWords`; `acc` is the current (reversed) in-progress word. -/
def pyWordsAux : List Char → List Char → List (List Char)
  | [], acc => if acc.isEmpty then [] else [acc.reverse]
  | c :: rest, acc =>
    if pyWsChar c then
      if acc.isEmpty then pyWordsAux rest [] else acc.reverse :: pyWordsAux rest []
    else
      pyWordsAux rest (c :: acc)

/-- Python `s.split()` with no argument: split on runs of whitespace,
discarding empty pieces. -/
def pyWords (s : List Char) : List (List Char) := pyWordsAux s []

/-- Python `str.upper()` on one character (ASCII, which covers the table). -/
def pyUpper (c : Char) : Char := c.toUpper

/-- Lookup in an association list, mirroring `MORSE_MAP[char]` /
`char in MORSE_MAP` on the Python dict. -/
def mapLookup (c : Char) : List (Char × String) → Option String
  | [] => none
  | p :: rest => if c = p.1 then some p.2 else mapLookup c rest

/-- The `MORSE_MAP` dict from the source, in its literal (insertion) order. -/
def MORSE_MAP : List (Char × String) :=
  [('A', ".-"), ('B', "-..."), ('C', "-.-."), ('D', "-.."), ('E', "."), ('F', "..-."),
   ('G', "--."), ('H', "...."), ('I', ".."), ('J', ".---"), ('K', "-.-"), ('L', ".-.."),
   ('M', "--"), ('N', "-."), ('O', "---"), ('P', ".--."), ('Q', "--.-"), ('R', ".-."),
   ('S', "..."), ('T', "-"), ('U', "..-"), ('V', "...-"), ('W', ".--"), ('X', "-..-"),
   ('Y', "-.--"), ('Z', "--.."),
   ('0', "-----"), ('1', ".----"), ('2', "..---"), ('3', "...--"), ('4', "....-"),
   ('5', "....."), ('6', "-...."), ('7', "--..."), ('8', "---.."), ('9', "----."),
   ('.', ".-.-.-"), (',', "--..--"), ('?', "..-.."), ('/', "-..-.")]

/-- A node of the Morse trie: the optional stored character and the two
child references (class `MorseNode` in the source; `none` models a `None`
child reference). -/
inductive MorseNode : Type where
  | mk (char : Option Char) (dot_child dash_child : Option MorseNode)

/-- The character stored at this node. -/
def MorseNode.char : MorseNode → Option Char
  | .mk c _ _ => c

/-- The child reached by a dot. -/
def MorseNode.dot_child : MorseNode → Option MorseNode
  | .mk _ d _ => d

/-- The child reached by a dash. -/
def MorseNode.dash_child : MorseNode → Option MorseNode
  | .mk _ _ d => d

/-- A freshly constructed `MorseNode()`. -/
def MorseNode.empty : MorseNode := .mk none none none

/-- One iteration of `build_trie`'s outer loop: walk `code` from `n`,
creating missing children, and store `ch` at the final node.  (The in-place
mutation of the source is rendered as rebuilding the affected path; the
resulting tree is the same.)  A mark other than `'.'`/`'-'` is skipped,
exactly as the `if`/`elif` chain in the source does. -/
def insertCode : MorseNode → List Char → Char → MorseNode
  | n, [], ch => .mk (some ch) n.dot_child n.dash_child
  | n, c :: rest, ch =>
    if c = '.' then
      .mk n.char
        (some (insertCode (match n.dot_child with | some m => m | none => .empty) rest ch))
        n.dash_child
    else if c = '-' then
      .mk n.char n.dot_child
        (some (insertCode (match n.dash_child with | some m => m | none => .empty) rest ch))
    else
      insertCode n rest ch

/-- The `MorseTrie` class: it owns the root node. -/
structure MorseTrie where
  root : MorseNode

/-- `MorseTrie()`: start from an empty root and run `build_trie`, inserting
every `(char, code)` pair of `MORSE_MAP` in dict (insertion) order. -/
def constructTrie : MorseTrie :=
  ⟨ MORSE_MAP.foldl (fun r p => insertCode r p.2.data p.1) MorseNode.empty ⟩

/-- The trie-walk loop of `MorseTrie.decode` (source lines 92-101) for one
character code.  The running value is `current_node : Option MorseNode`.
Following a mark from a `None` node dereferences `None.dot_child` /
`None.dash_child`, which raises `AttributeError` (`PyRes.raised`).
A mark that is neither `'.'` nor `'-'` sets `current_node = None` and
breaks out of the loop. -/
def walkTrie : Option MorseNode → List Char → PyRes (Option MorseNode)
  | cur, [] => .ok cur
  | cur, c :: rest =>
    if c = '.' then
      match cur with
      | none => .raised
      | some n => walkTrie n.dot_child rest
    else if c = '-' then
      match cur with
      | none => .raised
      | some n => walkTrie n.dash_child rest
    else
      .ok none

/-- Decoding one character code (source lines 89-107): walk the trie from
the root; if the final node exists and carries a character, yield it,
otherwise yield the placeholder `'?'`. -/
def decodeCode (t : MorseTrie) (code : List Char) : PyRes Char :=
  match walkTrie (some t.root) code with
  | .raised => .raised
  | .ok none => .ok '?'
  | .ok (some n) =>
    match n.char with
    | some c => .ok c
    | none => .ok '?'

/-- Sequencing of a per-element Python loop whose body may raise: stop at
the first exception, otherwise collect the results in order. -/
def mapMPy {α β : Type} (f : α → PyRes β) : List α → PyRes (List β)
  | [] => .ok []
  | a :: l =>
    match f a with
    | .raised => .raised
    | .ok b =>
      match mapMPy f l with
      | .raised => .raised
      | .ok bs => .ok (b :: bs)

/-- Decoding one word (source lines 82-109): split on single spaces, skip
empty codes, decode each code, and concatenate the resulting characters. -/
def decodeWord (t : MorseTrie) (w : List Char) : PyRes (List Char) :=
  mapMPy (decodeCode t) ((splitOnSep [' '] w).filter (fun code => !code.isEmpty))

/-- `MorseTrie.decode` (source lines 60-111): strip the message, split words
on triple spaces, decode each word, and join the decoded words with a
single space. -/
def MorseTrie.decode (t : MorseTrie) (msg : List Char) : PyRes (List Char) :=
  match mapMPy (decodeWord t) (splitOnSep [' ', ' ', ' '] (pyStrip msg)) with
  | .raised => .raised
  | .ok ws => .ok (joinSep [' '] ws)

/-- One character's code during encoding (source lines 132-138): the table
code if present, the marker `"###"` otherwise. -/
def encodeChar (c : Char) : List Char :=
  match mapLookup c MORSE_MAP with
  | some code => code.data
  | none => ['#', '#', '#']

/-- The inner loop of `encode`: build the list of character codes of one
word by successive `append`s. -/
def encodeWordLoop (w : List Char) : List (List Char) :=
  w.foldl (fun mw c => mw ++ [encodeChar c]) []

/-- `encode` (source lines 115-144): uppercase, split into words, encode
each word's characters (joined by one space), join words by three spaces.
The two `append` loops of the source are kept as folds. -/
def encode (text : List Char) : List Char :=
  joinSep [' ', ' ', ' ']
    ((pyWords (text.map pyUpper)).foldl
      (fun parts w => parts ++ [joinSep [' '] (encodeWordLoop w)]) [])

/-- The kind tag of one timed emission event of
`display_morse_timing_simulation` (source lines 147-199). -/
inductive EventKind : Type where
  | markDot
  | markDash
  | gapIntra
  | gapChar
  | gapWord
  | literal (c : Char)
  deriving DecidableEq, Repr

/-- The raw unit-time computation `60 / (50 * wpm)` (source line 161);
Python raises `ZeroDivisionError` exactly when the divisor is zero.
Durations (Python floats) are modelled as exact rationals. -/
def computeUnitE (wpm : ℤ) : PyRes ℚ :=
  if (50 : ℤ) * wpm = 0 then .raised else .ok ((60 : ℚ) / ((50 : ℚ) * (wpm : ℚ)))

/-- The `try`/`except ZeroDivisionError` of source lines 160-163: fall back
to `0.1` seconds when the division raises. -/
def unitTime (wpm : ℤ) : ℚ :=
  match computeUnitE wpm with
  | .ok u => u
  | .raised => 1 / 10

/-- Fuel-indexed worker for `pyReplace3` (structural, kernel-computable). -/
def pyReplace3F : Nat → List Char → List Char
  | _, [] => []
  | 0, s => s
  | fuel + 1, c :: rest =>
    if leadsWith [' ', ' ', ' '] (c :: rest) then
      ' ' :: '|' :: ' ' :: pyReplace3F fuel (rest.drop 2)
    else
      c :: pyReplace3F fuel rest

/-- Python `morse_code.replace('   ', ' | ')` (source line 171): replace
leftmost, non-overlapping triple spaces. -/
def pyReplace3 (s : List Char) : List Char :=
  pyReplace3F s.length s

/-- The timed events one character of the display string produces
(source lines 173-197), with their sleep durations in units of `u`:
a dot sleeps `1` then `1`, a dash `3` then `1`, a space `2`, a bar `4`;
any other character is printed with no sleep. -/
def charEvents (u : ℚ) (c : Char) : List (EventKind × ℚ) :=
  if c = '.' then [(.markDot, u), (.gapIntra, u)]
  else if c = '-' then [(.markDash, u * 3), (.gapIntra, u)]
  else if c = ' ' then [(.gapChar, u * 2)]
  else if c = '|' then [(.gapWord, u * 4)]
  else [(.literal c, 0)]

/-- The transmission plan of `display_morse_timing_simulation`: the ordered
sequence of timed events it realizes for `morse_code` at `wpm`
(empty when the stripped message is empty, source lines 155-157). -/
def planTransmission (morse : List Char) (wpm : ℤ) : List (EventKind × ℚ) :=
  if pyStrip morse = [] then []
  else ((pyReplace3 morse).map (charEvents (unitTime wpm))).flatten

/-- `MorseTrie.decode`'s trie walk in explicit state-passing style: the
trie object is threaded through every step, so that a mutating statement
would have to show up as a changed state.  The walk only reads. -/
def walkSt : MorseTrie → Option MorseNode → List Char → PyRes (Option MorseNode) × MorseTrie
  | t, cur, [] => (.ok cur, t)
  | t, cur, c :: rest =>
    if c = '.' then
      match cur with
      | none => (.raised, t)
      | some n => walkSt t n.dot_child rest
    else if c = '-' then
      match cur with
      | none => (.raised, t)
      | some n => walkSt t n.dash_child rest
    else
      (.ok none, t)

/-- One character code of `MorseTrie.decode`, state-passing style. -/
def decodeCodeSt (t : MorseTrie) (code : List Char) : PyRes Char × MorseTrie :=
  match walkSt t (some t.root) code with
  | (.raised, t1) => (.raised, t1)
  | (.ok none, t1) => (.ok '?', t1)
  | (.ok (some n), t1) =>
    match n.char with
    | some c => (.ok c, t1)
    | none => (.ok '?', t1)

/-- The per-code loop of one word, state-passing style. -/
def decodeCodesSt : MorseTrie → List (List Char) → PyRes (List Char) × MorseTrie
  | t, [] => (.ok [], t)
  | t, code :: rest =>
    match decodeCodeSt t code with
    | (.raised, t1) => (.raised, t1)
    | (.ok ch, t1) =>
      match decodeCodesSt t1 rest with
      | (.raised, t2) => (.raised, t2)
      | (.ok chs, t2) => (.ok (ch :: chs), t2)

/-- One word of `MorseTrie.decode`, state-passing style. -/
def decodeWordSt (t : MorseTrie) (w : List Char) : PyRes (List Char) × MorseTrie :=
  decodeCodesSt t ((splitOnSep [' '] w).filter (fun code => !code.isEmpty))

/-- The per-word loop of `MorseTrie.decode`, state-passing style. -/
def decodeWordsSt : MorseTrie → List (List Char) → PyRes (List (List Char)) × MorseTrie
  | t, [] => (.ok [], t)
  | t, w :: rest =>
    match decodeWordSt t w with
    | (.raised, t1) => (.raised, t1)
    | (.ok dw, t1) =>
      match decodeWordsSt t1 rest with
      | (.raised, t2) => (.raised, t2)
      | (.ok dws, t2) => (.ok (dw :: dws), t2)

/-- `MorseTrie.decode` in explicit state-passing style: the pair of the
returned text and the trie after the call. -/
def decodeSt (t : MorseTrie) (msg : List Char) : PyRes (List Char) × MorseTrie :=
  match decodeWordsSt t (splitOnSep [' ', ' ', ' '] (pyStrip msg)) with
  | (.raised, t1) => (.raised, t1)
  | (.ok ws, t1) => (.ok (joinSep [' '] ws), t1)

set_option maxRecDepth 10000

/-! ### Basic facts about the string helpers -/

theorem leadsWith_self_append (p s : List Char) : leadsWith p (p ++ s) = true := by
  induction p with
  | nil => rfl
  | cons a as ih => simp [leadsWith, ih]

theorem drop_len_append (a b : List Char) : (a ++ b).drop a.length = b := by
  induction a with
  | nil => rfl
  | cons x xs ih => simp only [List.cons_append, List.length_cons, List.drop_succ_cons]
                    exact ih

theorem splitOnSepF_congr (sep : List Char) :
    ∀ (f1 : Nat) (s : List Char) (f2 : Nat), s.length ≤ f1 → s.length ≤ f2 →
      splitOnSepF sep f1 s = splitOnSepF sep f2 s := by
  intro f1
  induction f1 with
  | zero =>
    intro s f2 h1 _
    cases s with
    | nil => cases f2 <;> rfl
    | cons c rest => simp at h1
  | succ f1 ih =>
    intro s f2 h1 h2
    cases s with
    | nil => cases f2 <;> rfl
    | cons c rest =>
      cases f2 with
      | zero => simp at h2
      | succ f2 =>
        simp only [splitOnSepF]
        by_cases h : leadsWith sep (c :: rest) = true
        · simp only [h, if_true]
          have hd : (rest.drop (sep.length - 1)).length ≤ rest.length := by
            simp only [List.length_drop]
            omega
          rw [ih (rest.drop (sep.length - 1)) f2
            (le_trans hd (by simpa using Nat.lt_succ_iff.mp (Nat.lt_of_lt_of_le (Nat.lt_succ_self _) h1)))
            (le_trans hd (by simpa using Nat.lt_succ_iff.mp (Nat.lt_of_lt_of_le (Nat.lt_succ_self _) h2)))]
        · simp only [h, if_false]
          rw [ih rest f2 (by simpa using Nat.le_of_succ_le_succ (by simpa using h1))
            (by simpa using Nat.le_of_succ_le_succ (by simpa using h2))]
          simp

theorem splitOnSep_eq_nil (sep : List Char) : splitOnSep sep [] = [[]] := rfl

theorem splitOnSep_cons_match (sep c rest) (h : leadsWith sep (c :: rest) = true) :
    splitOnSep sep (c :: rest) = [] :: splitOnSep sep (rest.drop (sep.length - 1)) := by
  show splitOnSepF sep (rest.length + 1) (c :: rest) = _
  simp only [splitOnSepF, h, if_true]
  rw [splitOnSepF_congr sep rest.length (rest.drop (sep.length - 1))
    (rest.drop (sep.length - 1)).length (by simp [List.length_drop]) (le_refl _)]
  rfl

theorem splitOnSep_cons_nomatch (sep c rest) (h : leadsWith sep (c :: rest) = false) :
    splitOnSep sep (c :: rest) =
      match splitOnSep sep rest with
      | [] => [[c]]
      | w :: ws => (c :: w) :: ws := by
  show splitOnSepF sep (rest.length + 1) (c :: rest) = _
  simp only [splitOnSepF, h, if_false]
  rfl

theorem splitOnSep_ne_nil (sep s : List Char) : splitOnSep sep s ≠ [] := by
  cases s with
  | nil => simp [splitOnSep_eq_nil]
  | cons c rest =>
    by_cases h : leadsWith sep (c :: rest) = true
    · rw [splitOnSep_cons_match sep c rest h]
      simp
    · rw [splitOnSep_cons_nomatch sep c rest (by simpa using h)]
      split <;> simp

theorem splitOnSep_append (sep w t : List Char)
    (hw : ∀ w1 w2, w = w1 ++ w2 → w2 ≠ [] → leadsWith sep (w2 ++ t) = false) :
    splitOnSep sep (w ++ t) =
      match splitOnSep sep t with
      | [] => [w]
      | x :: xs => (w ++ x) :: xs := by
  induction w with
  | nil =>
    simp only [List.nil_append]
    cases h : splitOnSep sep t with
    | nil => exact absurd h (splitOnSep_ne_nil sep t)
    | cons x xs => simp
  | cons c w ih =>
    have hfalse : leadsWith sep ((c :: w) ++ t) = false := hw [] (c :: w) rfl (by simp)
    rw [List.cons_append,
      splitOnSep_cons_nomatch sep c (w ++ t) (by simpa using hfalse)]
    rw [ih (fun w1 w2 hs hne => hw (c :: w1) w2 (by simp [hs]) hne)]
    cases h : splitOnSep sep t with
    | nil => exact absurd h (splitOnSep_ne_nil sep t)
    | cons x xs => simp

theorem splitOnSep_sep_append (sep t : List Char) (hsep : sep ≠ []) :
    splitOnSep sep (sep ++ t) = [] :: splitOnSep sep t := by
  cases sep with
  | nil => exact absurd rfl hsep
  | cons s0 sep2 =>
    rw [List.cons_append, splitOnSep_cons_match (s0 :: sep2) s0 (sep2 ++ t)
      (by rw [← List.cons_append]; exact leadsWith_self_append (s0 :: sep2) t)]
    have hd : (sep2 ++ t).drop ((s0 :: sep2).length - 1) = t := by
      simp only [List.length_cons, Nat.add_sub_cancel]
      exact drop_len_append sep2 t
    rw [hd]

theorem splitOnSep_joinSep (sep : List Char) (hsep : sep ≠ []) :
    ∀ ws : List (List Char), ws ≠ [] →
      (∀ w ∈ ws, ∀ t w1 w2, w = w1 ++ w2 → w2 ≠ [] → leadsWith sep (w2 ++ t) = false) →
      splitOnSep sep (joinSep sep ws) = ws := by
  intro ws
  induction ws with
  | nil => intro h; exact absurd rfl h
  | cons w ws ih =>
    intro _ hcl
    cases ws with
    | nil =>
      have h1 := splitOnSep_append sep w []
        (fun w1 w2 hs hne => hcl w (by simp) [] w1 w2 hs hne)
      rw [List.append_nil] at h1
      rw [show joinSep sep [w] = w from rfl, h1, splitOnSep_eq_nil]
      simp
    | cons w2 rest =>
      have hjoin : joinSep sep (w :: w2 :: rest) = w ++ (sep ++ joinSep sep (w2 :: rest)) := by
        simp [joinSep, List.append_assoc]
      rw [hjoin]
      rw [splitOnSep_append sep w (sep ++ joinSep sep (w2 :: rest))
        (fun w1 wsuf hs hne => hcl w (by simp) _ w1 wsuf hs hne)]
      rw [splitOnSep_sep_append sep _ hsep]
      rw [ih (by simp) (fun x hx => hcl x (List.mem_cons_of_mem _ hx))]
      simp

/-! ### Spacing discipline inside an encoded word -/

/-- `goodSpacing w` holds when no two spaces of `w` are adjacent and `w`
does not end with a space (so no run of three blanks can start inside `w`,
whatever follows it). -/
def goodSpacing : List Char → Bool
  | [] => true
  | [c] => !(c == ' ')
  | c :: c2 :: rest => (!(c == ' ') || !(c2 == ' ')) && goodSpacing (c2 :: rest)

theorem goodSpacing_tail (c : Char) (l : List Char) (h : goodSpacing (c :: l) = true) :
    goodSpacing l = true := by
  cases l with
  | nil => rfl
  | cons c2 rest =>
    simp only [goodSpacing, Bool.and_eq_true] at h
    exact h.2

theorem goodSpacing_suffix (w1 w2 : List Char) (h : goodSpacing (w1 ++ w2) = true) :
    goodSpacing w2 = true := by
  induction w1 with
  | nil => exact h
  | cons c w1 ih =>
    rw [List.cons_append] at h
    exact ih (goodSpacing_tail _ _ h)

theorem gs_clean (w : List Char) (hgs : goodSpacing w = true) :
    ∀ t w1 w2, w = w1 ++ w2 → w2 ≠ [] → leadsWith [' ', ' ', ' '] (w2 ++ t) = false := by
  intro t w1 w2 hsplit hne
  have h2 : goodSpacing w2 = true := goodSpacing_suffix w1 w2 (hsplit ▸ hgs)
  cases w2 with
  | nil => exact absurd rfl hne
  | cons a w3 =>
    by_cases ha : a = ' '
    · subst ha
      cases w3 with
      | nil => simp [goodSpacing] at h2
      | cons b w4 =>
        have hb : ¬ b = ' ' := by
          simp only [goodSpacing, Bool.and_eq_true, Bool.or_eq_true, Bool.not_eq_true',
            beq_eq_false_iff_ne] at h2
          rcases h2.1 with h | h
          · exact absurd rfl h
          · exact h
        simp [leadsWith, Ne.symm hb]
    · simp [leadsWith, Ne.symm ha]

theorem nospace_clean (w : List Char) (hw : ∀ a ∈ w, a ≠ ' ') :
    ∀ t w1 w2, w = w1 ++ w2 → w2 ≠ [] → leadsWith [' '] (w2 ++ t) = false := by
  intro t w1 w2 hsplit hne
  cases w2 with
  | nil => exact absurd rfl hne
  | cons a w3 =>
    have ha : a ≠ ' ' := hw a (by simp [hsplit])
    simp [leadsWith, Ne.symm ha]

theorem gs_of_nospace : ∀ w : List Char, (∀ a ∈ w, a ≠ ' ') → goodSpacing w = true
  | [], _ => rfl
  | [c], hw => by
    simp only [goodSpacing, Bool.not_eq_true', beq_eq_false_iff_ne]
    exact hw c (by simp)
  | c :: c2 :: rest, hw => by
    simp only [goodSpacing, Bool.and_eq_true, Bool.or_eq_true, Bool.not_eq_true',
      beq_eq_false_iff_ne]
    exact ⟨Or.inl (hw c (by simp)),
      gs_of_nospace (c2 :: rest) (fun a ha => hw a (List.mem_cons_of_mem _ ha))⟩

theorem gs_cons_nospace (a : Char) (l : List Char) (ha : a ≠ ' ') :
    goodSpacing (a :: l) = goodSpacing l := by
  cases l with
  | nil => simp [goodSpacing, ha]
  | cons b l2 => simp [goodSpacing, ha]

theorem gs_append_nospace (c s : List Char) (hc : ∀ a ∈ c, a ≠ ' ') :
    goodSpacing (c ++ s) = goodSpacing s := by
  induction c with
  | nil => rfl
  | cons a c2 ih =>
    rw [List.cons_append, gs_cons_nospace a _ (hc a (by simp)),
      ih (fun x hx => hc x (List.mem_cons_of_mem _ hx))]

theorem joinSep_gs : ∀ parts : List (List Char),
    (∀ p ∈ parts, p ≠ [] ∧ ∀ a ∈ p, a ≠ ' ') →
    goodSpacing (joinSep [' '] parts) = true
  | [], _ => rfl
  | [p], hp => gs_of_nospace p (hp p (by simp)).2
  | p :: p2 :: rest, hp => by
    have hps := hp p (by simp)
    have hjoin : joinSep [' '] (p :: p2 :: rest) = p ++ (' ' :: joinSep [' '] (p2 :: rest)) := by
      simp [joinSep]
    rw [hjoin, gs_append_nospace p _ hps.2]
    obtain ⟨b, jr, hj, hb⟩ : ∃ b jr, joinSep [' '] (p2 :: rest) = b :: jr ∧ b ≠ ' ' := by
      have hp2 := hp p2 (by simp)
      cases hq : p2 with
      | nil => exact absurd hq hp2.1
      | cons b p3 =>
        have hb : b ≠ ' ' := hp2.2 b (by simp [hq])
        cases rest with
        | nil => exact ⟨b, p3, by simp [joinSep, hq], hb⟩
        | cons r rs =>
          exact ⟨b, p3 ++ ' ' :: joinSep [' '] (r :: rs), by simp [joinSep, hq], hb⟩
    have hgs : goodSpacing (b :: jr) = true := by
      rw [← hj]
      exact joinSep_gs (p2 :: rest) (fun x hx => hp x (List.mem_cons_of_mem _ hx))
    rw [hj]
    simp only [goodSpacing, Bool.and_eq_true, Bool.or_eq_true, Bool.not_eq_true',
      beq_eq_false_iff_ne]
    exact ⟨Or.inr hb, hgs⟩

/-! ### Absence of triple blanks -/

/-- `hasTriple s` scans for any occurrence of three consecutive spaces. -/
def hasTriple : List Char → Bool
  | [] => false
  | c :: rest => leadsWith [' ', ' ', ' '] (c :: rest) || hasTriple rest

theorem splitOnSep3_single (s : List Char) (h : hasTriple s = false) :
    splitOnSep [' ', ' ', ' '] s = [s] := by
  induction s with
  | nil => rfl
  | cons c rest ih =>
    rw [hasTriple, Bool.or_eq_false_iff] at h
    rw [splitOnSep_cons_nomatch _ _ _ h.1, ih h.2]

/-! ### Loop sequencing, filtering, table lookup -/

theorem mapMPy_ok {α β : Type} (f : α → PyRes β) (g : α → β) :
    ∀ l : List α, (∀ a ∈ l, f a = .ok (g a)) → mapMPy f l = .ok (l.map g)
  | [], _ => rfl
  | a :: l, h => by
    rw [mapMPy, h a (by simp),
      mapMPy_ok f g l (fun x hx => h x (List.mem_cons_of_mem _ hx))]
    simp

theorem filter_nonempty_id (l : List (List Char)) (h : ∀ x ∈ l, x ≠ []) :
    l.filter (fun code => !code.isEmpty) = l := by
  induction l with
  | nil => rfl
  | cons x xs ih =>
    rw [List.filter_cons]
    have hx : (!x.isEmpty) = true := by
      cases hq : x with
      | nil => exact absurd hq (h x (by simp))
      | cons a l2 => simp [hq]
    simp only [hx, if_true]
    rw [ih (fun y hy => h y (List.mem_cons_of_mem _ hy))]

theorem mapLookup_mem (c : Char) :
    ∀ (l : List (Char × String)) (s : String), mapLookup c l = some s → (c, s) ∈ l
  | [], s, h => by simp [mapLookup] at h
  | p :: rest, s, h => by
    by_cases hc : c = p.1
    · rw [mapLookup, if_pos hc] at h
      injection h with h2
      have : (c, s) = p := by
        cases p
        simp only [Prod.mk.injEq]
        exact ⟨hc, h2.symm⟩
      simp [this]
    · rw [mapLookup, if_neg hc] at h
      exact List.mem_cons_of_mem _ (mapLookup_mem c rest s h)

/-! ### Facts about the fixed code table, checked by evaluation -/

theorem morse_codes_wf :
    ∀ p ∈ MORSE_MAP, p.2.data ≠ [] ∧ ∀ a ∈ p.2.data, a = '.' ∨ a = '-' := by
  decide

theorem decode_table_code :
    ∀ p ∈ MORSE_MAP, decodeCode constructTrie p.2.data = .ok p.1 := by
  decide

theorem dotdash_ne_space (a : Char) (h : a = '.' ∨ a = '-') : a ≠ ' ' := by
  rcases h with rfl | rfl <;> decide

theorem dotdash_not_ws (a : Char) (h : a = '.' ∨ a = '-') : pyWsChar a = false := by
  rcases h with rfl | rfl <;> decide

theorem pyUpper_of_ws (c : Char) (h : pyWsChar c = true) : pyUpper c = c := by
  simp only [pyWsChar, Bool.or_eq_true, decide_eq_true_eq] at h
  rcases h with ((((rfl | rfl) | rfl) | rfl) | rfl) | rfl <;> decide

/-! ### Facts about whitespace splitting (`pyWords`) -/

theorem pyWordsAux_mem :
    ∀ (s acc : List Char), (∀ c ∈ acc, pyWsChar c = false) →
      ∀ w ∈ pyWordsAux s acc,
        w ≠ [] ∧ ∀ c ∈ w, pyWsChar c = false ∧ (c ∈ s ∨ c ∈ acc)
  | [], acc, hacc, w, hw => by
    rw [pyWordsAux] at hw
    split at hw
    · simp at hw
    · rename_i hne
      simp only [List.mem_singleton] at hw
      subst hw
      refine ⟨by simpa [List.isEmpty_iff] using hne, ?_⟩
      intro c hc
      have hcacc : c ∈ acc := by simpa using hc
      exact ⟨hacc c hcacc, Or.inr hcacc⟩
  | a :: rest, acc, hacc, w, hw => by
    rw [pyWordsAux] at hw
    split at hw
    · rename_i hws
      split at hw
      · have hrec := pyWordsAux_mem rest [] (by simp) w hw
        refine ⟨hrec.1, fun c hc => ?_⟩
        rcases hrec.2 c hc with ⟨h1, h2 | h2⟩
        · exact ⟨h1, Or.inl (List.mem_cons_of_mem _ h2)⟩
        · simp at h2
      · rcases List.mem_cons.mp hw with rfl | hw2
        · refine ⟨?_, fun c hc => ?_⟩
          · rename_i hne
            simpa [List.isEmpty_iff] using hne
          · have hcacc : c ∈ acc := by simpa using hc
            exact ⟨hacc c hcacc, Or.inr hcacc⟩
        · have hrec := pyWordsAux_mem rest [] (by simp) w hw2
          refine ⟨hrec.1, fun c hc => ?_⟩
          rcases hrec.2 c hc with ⟨h1, h2 | h2⟩
          · exact ⟨h1, Or.inl (List.mem_cons_of_mem _ h2)⟩
          · simp at h2
    · rename_i hws
      have hrec := pyWordsAux_mem rest (a :: acc)
        (by
          intro x hx
          rcases List.mem_cons.mp hx with rfl | hx2
          · simpa using hws
          · exact hacc x hx2) w hw
      refine ⟨hrec.1, fun c hc => ?_⟩
      rcases hrec.2 c hc with ⟨h1, h2 | h2⟩
      · exact ⟨h1, Or.inl (List.mem_cons_of_mem _ h2)⟩
      · rcases List.mem_cons.mp h2 with rfl | h3
        · exact ⟨h1, Or.inl (by simp)⟩
        · exact ⟨h1, Or.inr h3⟩

theorem pyWords_mem (s : List Char) (w : List Char) (hw : w ∈ pyWords s) :
    w ≠ [] ∧ ∀ c ∈ w, pyWsChar c = false ∧ c ∈ s := by
  have h := pyWordsAux_mem s [] (by simp) w hw
  refine ⟨h.1, fun c hc => ?_⟩
  rcases h.2 c hc with ⟨h1, h2 | h2⟩
  · exact ⟨h1, h2⟩
  · simp at h2

/-! ### Stripping is the identity on messages with non-blank ends -/

theorem dropWhile_id_of_head (a : Char) (l : List Char) (ha : pyWsChar a = false) :
    (a :: l).dropWhile pyWsChar = a :: l := by
  simp [List.dropWhile_cons, ha]

theorem pyStrip_noop (s : List Char)
    (h1 : s.dropWhile pyWsChar = s) (h2 : s.reverse.dropWhile pyWsChar = s.reverse) :
    pyStrip s = s := by
  unfold pyStrip
  rw [h1, h2, List.reverse_reverse]

theorem pyStrip_noop_shape (a b : Char) (s : List Char)
    (h1 : ∃ v, s = a :: v) (h2 : ∃ u, s = u ++ [b])
    (ha : pyWsChar a = false) (hb : pyWsChar b = false) :
    pyStrip s = s := by
  obtain ⟨v, rfl⟩ := h1
  obtain ⟨u, hu⟩ := h2
  refine pyStrip_noop _ (dropWhile_id_of_head a v ha) ?_
  rw [hu, List.reverse_append]
  exact dropWhile_id_of_head b u.reverse hb

/-! ### Shape of joined lists -/

theorem joinSep_head_shape (sep : List Char) (a : Char) (p2 : List Char)
    (parts : List (List Char)) :
    ∃ v, joinSep sep ((a :: p2) :: parts) = a :: v := by
  cases parts with
  | nil => exact ⟨p2, rfl⟩
  | cons q qs => exact ⟨p2 ++ sep ++ joinSep sep (q :: qs), by simp [joinSep]⟩

theorem joinSep_concat (sep : List Char) :
    ∀ (ws : List (List Char)) (w : List Char), ws ≠ [] →
      joinSep sep (ws ++ [w]) = joinSep sep ws ++ sep ++ w
  | [], w, h => absurd rfl h
  | [x], w, _ => by simp [joinSep]
  | x :: y :: rest, w, _ => by
    have h1 : (x :: y :: rest) ++ [w] = x :: ((y :: rest) ++ [w]) := by simp
    rw [h1]
    have h2 : joinSep sep (x :: ((y :: rest) ++ [w])) =
        x ++ sep ++ joinSep sep ((y :: rest) ++ [w]) := by
      rw [List.cons_append]
      simp [joinSep]
    rw [h2, joinSep_concat sep (y :: rest) w (by simp)]
    simp only [joinSep]
    simp [List.append_assoc]

theorem joinSep_last_shape (sep : List Char) :
    ∀ (parts : List (List Char)) (p u : List Char) (b : Char), p = u ++ [b] →
      ∃ v, joinSep sep (parts ++ [p]) = v ++ [b]
  | [], p, u, b, hp => ⟨u, by simp [joinSep, hp]⟩
  | x :: rest, p, u, b, hp => by
    rw [joinSep_concat sep (x :: rest) p (by simp), hp]
    exact ⟨joinSep sep (x :: rest) ++ sep ++ u, by simp⟩

theorem mem_joinSep (sep : List Char) :
    ∀ (parts : List (List Char)) (c : Char), c ∈ joinSep sep parts →
      c ∈ sep ∨ ∃ p ∈ parts, c ∈ p
  | [], c, h => by simp [joinSep] at h
  | [p], c, h => Or.inr ⟨p, by simp, h⟩
  | p :: q :: rest, c, h => by
    have hj : joinSep sep (p :: q :: rest) = p ++ sep ++ joinSep sep (q :: rest) := by
      simp [joinSep]
    rw [hj] at h
    rcases List.mem_append.mp h with h1 | h2
    · rcases List.mem_append.mp h1 with h3 | h4
      · exact Or.inr ⟨p, by simp, h3⟩
      · exact Or.inl h4
    · rcases mem_joinSep sep (q :: rest) c h2 with h3 | ⟨x, hx, hcx⟩
      · exact Or.inl h3
      · exact Or.inr ⟨x, List.mem_cons_of_mem _ hx, hcx⟩

/-! ### The encoder in the spec's compositional form -/

theorem foldl_push_eq_map {α β : Type} (f : α → β) :
    ∀ (l : List α) (acc : List β),
      l.foldl (fun acc2 x => acc2 ++ [f x]) acc = acc ++ l.map f
  | [], acc => by simp
  | x :: l, acc => by
    simp only [List.foldl_cons, List.map_cons]
    rw [foldl_push_eq_map f l (acc ++ [f x])]
    simp

theorem encodeWordLoop_eq (w : List Char) : encodeWordLoop w = w.map encodeChar := by
  unfold encodeWordLoop
  have h := foldl_push_eq_map encodeChar w []
  simpa using h

/-- The encoder exactly as the specification words it: uppercase the text,
split it into whitespace-delimited words, map every character to its table
code (or to the marker `"###"` when absent), join the codes of one word
with a single space, and join the words with a triple space. -/
def encodeSpec (text : List Char) : List Char :=
  joinSep [' ', ' ', ' ']
    ((pyWords (text.map pyUpper)).map (fun w => joinSep [' '] (w.map encodeChar)))

theorem encode_eq_spec (text : List Char) : encode text = encodeSpec text := by
  unfold encode encodeSpec
  rw [foldl_push_eq_map (fun w => joinSep [' '] (encodeWordLoop w)) _ []]
  simp [encodeWordLoop_eq]

/-- The round-trip claim's right-hand side: the original text uppercased,
split into its whitespace-delimited words, and re-joined with single
spaces. -/
def normalizeText (text : List Char) : List Char :=
  joinSep [' '] (pyWords (text.map pyUpper))

/-! ### Per-character and per-word encoding facts -/

theorem mapMPy_map_ok {α β γ : Type} (f : β → PyRes γ) (e : α → β) (g : α → γ) :
    ∀ l : List α, (∀ a ∈ l, f (e a) = .ok (g a)) → mapMPy f (l.map e) = .ok (l.map g)
  | [], _ => rfl
  | a :: l, h => by
    simp only [List.map_cons]
    rw [mapMPy, h a (by simp),
      mapMPy_map_ok f e g l (fun x hx => h x (List.mem_cons_of_mem _ hx))]

theorem encodeChar_wf (c : Char) (hc : (mapLookup c MORSE_MAP).isSome = true) :
    encodeChar c ≠ [] ∧ (∀ a ∈ encodeChar c, a = '.' ∨ a = '-') ∧
      decodeCode constructTrie (encodeChar c) = .ok c := by
  obtain ⟨code, hcode⟩ := Option.isSome_iff_exists.mp hc
  have hmem := mapLookup_mem c MORSE_MAP code hcode
  have hwf := morse_codes_wf (c, code) hmem
  have hdec := decode_table_code (c, code) hmem
  unfold encodeChar
  rw [hcode]
  exact ⟨hwf.1, hwf.2, hdec⟩

theorem encodeWord_shape (w : List Char) (hw : w ≠ [])
    (hc : ∀ c ∈ w, (mapLookup c MORSE_MAP).isSome = true) :
    (∃ a v, joinSep [' '] (w.map encodeChar) = a :: v ∧ pyWsChar a = false)
    ∧ (∃ u b, joinSep [' '] (w.map encodeChar) = u ++ [b] ∧ pyWsChar b = false)
    ∧ goodSpacing (joinSep [' '] (w.map encodeChar)) = true := by
  have hparts : ∀ p ∈ w.map encodeChar, p ≠ [] ∧ ∀ a ∈ p, a ≠ ' ' := by
    intro p hp
    obtain ⟨c, hcw, rfl⟩ := List.mem_map.mp hp
    obtain ⟨h1, h2, _⟩ := encodeChar_wf c (hc c hcw)
    exact ⟨h1, fun a ha => dotdash_ne_space a (h2 a ha)⟩
  have hpartsws : ∀ p ∈ w.map encodeChar, p ≠ [] ∧ ∀ a ∈ p, pyWsChar a = false := by
    intro p hp
    obtain ⟨c, hcw, rfl⟩ := List.mem_map.mp hp
    obtain ⟨h1, h2, _⟩ := encodeChar_wf c (hc c hcw)
    exact ⟨h1, fun a ha => dotdash_not_ws a (h2 a ha)⟩
  refine ⟨?_, ?_, joinSep_gs (w.map encodeChar) hparts⟩
  · cases hq : w.map encodeChar with
    | nil =>
      exfalso
      cases w with
      | nil => exact hw rfl
      | cons c w2 => simp at hq
    | cons p0 prest =>
      have hp0 := hpartsws p0 (by rw [hq]; simp)
      cases hp0a : p0 with
      | nil => exact absurd hp0a hp0.1
      | cons a v =>
        obtain ⟨vv, hj⟩ := joinSep_head_shape [' '] a v prest
        exact ⟨a, vv, hj, hp0.2 a (by simp [hp0a])⟩
  · obtain ⟨front, plast, hfp⟩ :=
      (List.eq_nil_or_concat (w.map encodeChar)).resolve_left
        (by
          cases w with
          | nil => exact absurd rfl hw
          | cons c w2 => simp)
    rw [List.concat_eq_append] at hfp
    have hpl := hpartsws plast (by rw [hfp]; simp)
    obtain ⟨u0, b, hub⟩ := (List.eq_nil_or_concat plast).resolve_left hpl.1
    rw [List.concat_eq_append] at hub
    obtain ⟨v2, hv2⟩ := joinSep_last_shape [' '] front plast u0 b hub
    refine ⟨v2, b, ?_, hpl.2 b (by rw [hub]; simp)⟩
    rw [hfp, hv2]

theorem decodeWord_encodeWord (w : List Char) (hw : w ≠ [])
    (hc : ∀ c ∈ w, (mapLookup c MORSE_MAP).isSome = true) :
    decodeWord constructTrie (joinSep [' '] (w.map encodeChar)) = .ok w := by
  unfold decodeWord
  have hparts : ∀ p ∈ w.map encodeChar, p ≠ [] ∧ ∀ a ∈ p, a ≠ ' ' := by
    intro p hp
    obtain ⟨c, hcw, rfl⟩ := List.mem_map.mp hp
    obtain ⟨h1, h2, _⟩ := encodeChar_wf c (hc c hcw)
    exact ⟨h1, fun a ha => dotdash_ne_space a (h2 a ha)⟩
  rw [splitOnSep_joinSep [' '] (by simp) (w.map encodeChar)
    (by
      cases w with
      | nil => exact absurd rfl hw
      | cons c w2 => simp)
    (fun p hp => nospace_clean p (hparts p hp).2)]
  rw [filter_nonempty_id _ (fun p hp => (hparts p hp).1)]
  have hmm := mapMPy_map_ok (decodeCode constructTrie) encodeChar id w
    (fun c hcw => (encodeChar_wf c (hc c hcw)).2.2)
  rw [hmm]
  simp

theorem pyStrip_joinSep_noop (sep : List Char) (parts : List (List Char)) (hne : parts ≠ [])
    (hshape : ∀ p ∈ parts,
      (∃ a v, p = a :: v ∧ pyWsChar a = false) ∧ (∃ u b, p = u ++ [b] ∧ pyWsChar b = false)) :
    pyStrip (joinSep sep parts) = joinSep sep parts := by
  obtain ⟨front, plast, hfp⟩ := (List.eq_nil_or_concat parts).resolve_left hne
  rw [List.concat_eq_append] at hfp
  subst hfp
  have hfirst : ∃ a, (∃ v, joinSep sep (front ++ [plast]) = a :: v) ∧ pyWsChar a = false := by
    cases front with
    | nil =>
      obtain ⟨⟨a, v, hp, ha⟩, _⟩ := hshape plast (by simp)
      exact ⟨a, ⟨v, by simp [joinSep, hp]⟩, ha⟩
    | cons p0 frest =>
      obtain ⟨⟨a, v, hp, ha⟩, _⟩ := hshape p0 (by simp)
      subst hp
      obtain ⟨vv, hj⟩ := joinSep_head_shape sep a v (frest ++ [plast])
      exact ⟨a, ⟨vv, by simpa using hj⟩, ha⟩
  have hlastshape : ∃ b, (∃ u, joinSep sep (front ++ [plast]) = u ++ [b]) ∧ pyWsChar b = false := by
    obtain ⟨_, u, b, hp, hb⟩ := hshape plast (by simp)
    obtain ⟨v2, hv2⟩ := joinSep_last_shape sep front plast u b hp
    exact ⟨b, ⟨v2, hv2⟩, hb⟩
  obtain ⟨a, h1, ha⟩ := hfirst
  obtain ⟨b, h2, hb⟩ := hlastshape
  exact pyStrip_noop_shape a b _ h1 h2 ha hb

/-! ### The round trip, assembled -/

/-- C2: for any text whose characters are whitespace or (after uppercasing)
present in `MORSE_MAP`, decoding the encoding reproduces the text with case
normalized to uppercase and words separated by single spaces. -/
theorem c2_encode_decode_roundtrip (text : List Char)
    (h : ∀ c ∈ text, pyWsChar c = true ∨ (mapLookup (pyUpper c) MORSE_MAP).isSome = true) :
    MorseTrie.decode constructTrie (encode text) = .ok (normalizeText text) := by
  rw [encode_eq_spec]
  unfold encodeSpec normalizeText
  have hwords : ∀ w ∈ pyWords (text.map pyUpper),
      w ≠ [] ∧ ∀ c ∈ w, (mapLookup c MORSE_MAP).isSome = true := by
    intro w hwmem
    have hm := pyWords_mem (text.map pyUpper) w hwmem
    refine ⟨hm.1, fun c hc => ?_⟩
    obtain ⟨hnws, hcmem⟩ := hm.2 c hc
    obtain ⟨c0, hc0, rfl⟩ := List.mem_map.mp hcmem
    rcases h c0 hc0 with hws0 | hsome
    · exfalso
      rw [pyUpper_of_ws c0 hws0] at hnws
      simp [hws0] at hnws
    · exact hsome
  cases hq : pyWords (text.map pyUpper) with
  | nil =>
    simp only [List.map_nil]
    show MorseTrie.decode constructTrie (joinSep [' ', ' ', ' '] []) = .ok (joinSep [' '] [])
    decide
  | cons w0 wrest =>
    have hwords2 : ∀ w ∈ w0 :: wrest,
        w ≠ [] ∧ ∀ c ∈ w, (mapLookup c MORSE_MAP).isSome = true :=
      fun w hw => hwords w (hq ▸ hw)
    have hshape : ∀ p ∈ (w0 :: wrest).map (fun w => joinSep [' '] (w.map encodeChar)),
        (∃ a v, p = a :: v ∧ pyWsChar a = false) ∧
        (∃ u b, p = u ++ [b] ∧ pyWsChar b = false) := by
      intro p hp
      obtain ⟨w, hwmem, rfl⟩ := List.mem_map.mp hp
      obtain ⟨hne, hcall⟩ := hwords2 w hwmem
      obtain ⟨hhead, hlast, _⟩ := encodeWord_shape w hne hcall
      exact ⟨hhead, hlast⟩
    have hgsall : ∀ p ∈ (w0 :: wrest).map (fun w => joinSep [' '] (w.map encodeChar)),
        goodSpacing p = true := by
      intro p hp
      obtain ⟨w, hwmem, rfl⟩ := List.mem_map.mp hp
      obtain ⟨hne, hcall⟩ := hwords2 w hwmem
      exact (encodeWord_shape w hne hcall).2.2
    unfold MorseTrie.decode
    rw [pyStrip_joinSep_noop [' ', ' ', ' '] _ (by simp) hshape]
    rw [splitOnSep_joinSep [' ', ' ', ' '] (by simp) _ (by simp)
      (fun p hp => gs_clean p (hgsall p hp))]
    rw [mapMPy_map_ok (decodeWord constructTrie)
      (fun w => joinSep [' '] (w.map encodeChar)) id (w0 :: wrest)
      (fun w hwmem => by
        have hp := hwords2 w hwmem
        simpa using decodeWord_encodeWord w hp.1 hp.2)]
    simp

/-! ### The state-passing decoder coincides with the pure one -/

theorem walkSt_eq (t : MorseTrie) :
    ∀ (cur : Option MorseNode) (code : List Char),
      walkSt t cur code = (walkTrie cur code, t)
  | cur, [] => rfl
  | cur, c :: rest => by
    simp only [walkSt, walkTrie]
    by_cases h1 : c = '.'
    · simp only [h1, if_true]
      cases cur with
      | none => rfl
      | some n => exact walkSt_eq t n.dot_child rest
    · by_cases h2 : c = '-'
      · simp only [h1, h2, if_false, if_true]
        cases cur with
        | none => rfl
        | some n => exact walkSt_eq t n.dash_child rest
      · simp only [h1, h2, if_false]

theorem decodeCodeSt_eq (t : MorseTrie) (code : List Char) :
    decodeCodeSt t code = (decodeCode t code, t) := by
  unfold decodeCodeSt decodeCode
  rw [walkSt_eq]
  cases walkTrie (some t.root) code with
  | raised => rfl
  | ok cur =>
    cases cur with
    | none => rfl
    | some n =>
      cases n with
      | mk oc od oda => cases oc <;> rfl

theorem decodeCodesSt_eq (t : MorseTrie) :
    ∀ codes : List (List Char), decodeCodesSt t codes = (mapMPy (decodeCode t) codes, t)
  | [] => rfl
  | code :: rest => by
    rw [decodeCodesSt, mapMPy, decodeCodeSt_eq]
    cases decodeCode t code with
    | raised => rfl
    | ok ch =>
      dsimp only
      rw [decodeCodesSt_eq t rest]
      cases mapMPy (decodeCode t) rest with
      | raised => rfl
      | ok chs => rfl

theorem decodeWordSt_eq (t : MorseTrie) (w : List Char) :
    decodeWordSt t w = (decodeWord t w, t) := by
  unfold decodeWordSt decodeWord
  exact decodeCodesSt_eq t _

theorem decodeWordsSt_eq (t : MorseTrie) :
    ∀ ws : List (List Char), decodeWordsSt t ws = (mapMPy (decodeWord t) ws, t)
  | [] => rfl
  | w :: rest => by
    rw [decodeWordsSt, mapMPy, decodeWordSt_eq]
    cases decodeWord t w with
    | raised => rfl
    | ok dw =>
      dsimp only
      rw [decodeWordsSt_eq t rest]
      cases mapMPy (decodeWord t) rest with
      | raised => rfl
      | ok dws => rfl

/-! ### The claims -/

/-- C1: the specification says an absent child edge makes `lookup` return
Unresolved at once and `decode` print `'?'`; the code instead keeps walking
and dereferences the missing (`None`) child, so decoding the specification's
own example `".-.-.-.-"` raises `AttributeError` instead of producing
`"?"`. -/
theorem c1_decode_unknown_code_raises :
    MorseTrie.decode constructTrie (String.data ".-.-.-.-") = PyRes.raised := by
  decide

/-- C2 witness. -/
theorem c2_roundtrip_witness :
    MorseTrie.decode constructTrie (encode (String.data "Hi there")) =
      .ok (normalizeText (String.data "Hi there")) :=
  c2_encode_decode_roundtrip (String.data "Hi there") (by decide)

/-- C3 counterexample: the table is not prefix-free — `'E'`'s code `"."` is
a proper initial segment of `'I'`'s code `".."`, and both are distinct
entries of `MORSE_MAP`. -/
theorem c3_prefix_free_counterexample :
    ('E', ("." : String)) ∈ MORSE_MAP ∧ ('I', (".." : String)) ∈ MORSE_MAP ∧
      ("." : String) ≠ (".." : String) ∧
      leadsWith (String.data ".") (String.data "..") = true := by
  decide

/-- C3 (amended): distinct entries of `MORSE_MAP` always carry distinct
codes (the table is injective), although it is not prefix-free. -/
theorem c3_codes_pairwise_distinct :
    ∀ p ∈ MORSE_MAP, ∀ q ∈ MORSE_MAP, p ≠ q → p.2 ≠ q.2 := by
  decide

/-- C3 witness. -/
theorem c3_codes_distinct_witness :
    (('A', (".-" : String)) : Char × String).2 ≠ (('B', ("-..." : String)) : Char × String).2 :=
  c3_codes_pairwise_distinct ('A', ".-") (by decide) ('B', "-...") (by decide) (by decide)

/-- C4: at 15 WPM (unit 2/25 s) the planned gap between the two words of
`".   ."` — measured from the end of the previous mark to the start of the
next — is 1+2+4+2 = 9 units, not the 7 units the specification (and the
source's own comment) require.  The trailing space of the `' | '`
replacement adds an extra 2 units. -/
theorem c4_word_gap_nine_units :
    planTransmission (String.data ".   .") 15 =
      [(EventKind.markDot, unitTime 15), (EventKind.gapIntra, unitTime 15),
       (EventKind.gapChar, unitTime 15 * 2), (EventKind.gapWord, unitTime 15 * 4),
       (EventKind.gapChar, unitTime 15 * 2), (EventKind.markDot, unitTime 15),
       (EventKind.gapIntra, unitTime 15)]
    ∧ unitTime 15 + (unitTime 15 * 2 + (unitTime 15 * 4 + unitTime 15 * 2)) = 9 * unitTime 15
    ∧ 9 * unitTime 15 ≠ 7 * unitTime 15 := by
  refine ⟨rfl, by ring, ?_⟩
  have hu : unitTime 15 = 2 / 25 := by
    simp only [unitTime, computeUnitE]
    norm_num
  rw [hu]
  norm_num

/-- C5: every `(symbol, code)` pair of the table decodes, through the
constructed trie, to exactly that symbol. -/
theorem c5_decode_table_codes :
    ∀ p ∈ MORSE_MAP, MorseTrie.decode constructTrie p.2.data = .ok [p.1] := by
  decide

/-- C5 witness. -/
theorem c5_decode_table_witness :
    ('A', (".-" : String)) ∈ MORSE_MAP ∧
      MorseTrie.decode constructTrie (String.data ".-") = .ok ['A'] :=
  ⟨by decide, c5_decode_table_codes ('A', ".-") (by decide)⟩

/-- C6: with WPM = 0 the raw unit computation raises `ZeroDivisionError`,
the handler substitutes the fixed fallback unit 0.1 s, and the planner
still produces the full event sequence for the whole message with that
fallback unit. -/
theorem c6_zero_wpm_fallback :
    computeUnitE 0 = PyRes.raised ∧ unitTime 0 = 1 / 10 ∧
      ∀ morse : List Char, planTransmission morse 0 =
        if pyStrip morse = [] then []
        else ((pyReplace3 morse).map (charEvents (1 / 10))).flatten := by
  refine ⟨rfl, rfl, fun morse => ?_⟩
  unfold planTransmission
  rw [show unitTime 0 = 1 / 10 from rfl]

/-- C7: the encoder uppercases its input, splits it into
whitespace-delimited words, maps characters through the table with `"###"`
for absent ones (without aborting the word), joins codes with one space and
words with three; e.g. `"a@b"` encodes to `".- ### -..."`. -/
theorem c7_encode_spec_conformance :
    (∀ text : List Char, encode text = encodeSpec text) ∧
      encode (String.data "a@b") = String.data ".- ### -..." := by
  refine ⟨encode_eq_spec, ?_⟩
  decide

/-- C8 counterexample: two codes separated by only two spaces are decoded
into a single word with the two symbols concatenated (`"SO"`), not into the
two space-separated words (`"S O"`) the claim predicts. -/
theorem c8_two_space_counterexample :
    MorseTrie.decode constructTrie (String.data "...  ---") = .ok (String.data "SO") ∧
      String.data "SO" ≠ String.data "S O" := by
  decide

/-- C8 (amended): a word boundary requires the full triple-space separator.
For any two table codes, separating them with exactly two spaces decodes to
one word holding both symbols (the empty code between them is discarded),
while three spaces decode to two words joined by a single space. -/
theorem c8_word_separation_amended :
    ∀ p ∈ MORSE_MAP, ∀ q ∈ MORSE_MAP,
      MorseTrie.decode constructTrie (p.2.data ++ [' ', ' '] ++ q.2.data) = .ok [p.1, q.1] ∧
      MorseTrie.decode constructTrie (p.2.data ++ [' ', ' ', ' '] ++ q.2.data) =
        .ok [p.1, ' ', q.1] := by
  decide

/-- C8 witness. -/
theorem c8_word_separation_witness :
    MorseTrie.decode constructTrie
        ((String.data "...") ++ [' ', ' '] ++ (String.data "---")) = .ok ['S', 'O'] ∧
      MorseTrie.decode constructTrie
        ((String.data "...") ++ [' ', ' ', ' '] ++ (String.data "---")) = .ok ['S', ' ', 'O'] :=
  c8_word_separation_amended ('S', "...") (by decide) ('O', "---") (by decide)

/-- C9: decoding never mutates the trie — run in explicit state-passing
style, `decode` returns the trie unchanged (every node, with its stored
character and both child references, is the same tree value), and its
result is exactly that of the pure read `MorseTrie.decode`. -/
theorem c9_decode_no_mutation :
    ∀ (t : MorseTrie) (msg : List Char),
      (decodeSt t msg).2 = t ∧ (decodeSt t msg).1 = MorseTrie.decode t msg := by
  intro t msg
  have h : decodeSt t msg = (MorseTrie.decode t msg, t) := by
    unfold decodeSt MorseTrie.decode
    rw [decodeWordsSt_eq]
    cases mapMPy (decodeWord t) (splitOnSep [' ', ' ', ' '] (pyStrip msg)) with
    | raised => rfl
    | ok ws => rfl
  rw [h]
  exact ⟨rfl, rfl⟩

/-- C10: every character of any encoder output is a dot, a dash, a `'#'`
from the unresolved marker, or a space from the separators. -/
theorem c10_encode_alphabet (text : List Char) (c : Char) (hc : c ∈ encode text) :
    c = '.' ∨ c = '-' ∨ c = '#' ∨ c = ' ' := by
  rw [encode_eq_spec] at hc
  unfold encodeSpec at hc
  rcases mem_joinSep _ _ c hc with h1 | ⟨p, hp, hcp⟩
  · right; right; right; simpa using h1
  · obtain ⟨w, hw, rfl⟩ := List.mem_map.mp hp
    rcases mem_joinSep _ _ c hcp with h2 | ⟨q, hq, hcq⟩
    · right; right; right; simpa using h2
    · obtain ⟨ch, hchw, rfl⟩ := List.mem_map.mp hq
      unfold encodeChar at hcq
      cases hl : mapLookup ch MORSE_MAP with
      | none =>
        rw [hl] at hcq
        right; right; left
        simpa using hcq
      | some code =>
        rw [hl] at hcq
        have hmem := mapLookup_mem ch MORSE_MAP code hl
        rcases (morse_codes_wf (ch, code) hmem).2 c hcq with h | h
        · exact Or.inl h
        · exact Or.inr (Or.inl h)

/-- C10 witness. -/
theorem c10_encode_alphabet_witness :
    '#' = '.' ∨ '#' = '-' ∨ '#' = '#' ∨ '#' = ' ' :=
  c10_encode_alphabet (String.data "a@ b") '#' (by decide)
